import Mathlib

/-!
Shallow embedding of the sequential-thinking MCP server
(`src/src/think/main.py`): the thought validator and per-session log
(`SequentialThinkingServer`), the bounded LRU session store
(`ThinkingSessionManager`), and the control-flow skeleton of the SSE
heartbeat loop (`send_heartbeat`).

Python dictionaries preserve insertion order; they are modelled as
association lists.  Python `time.time()` is modelled by an explicit `now`
parameter of type `Nat` (an abstract monotone clock reading).  Python
values that flow through the untyped input dictionary are modelled by
`PyVal`, which keeps Python's truthiness and `isinstance` behaviour
(in Python, `bool` is a subclass of `int`).
-/

/-- A Python value as it appears in the tool-call input dictionary.
`PyVal.none` models both an absent key and an explicit `None` (the code
only reads these fields through `dict.get`, which conflates the two for
every field it touches). -/
inductive PyVal where
  | none
  | str (s : String)
  | int (n : Int)
  | bool (b : Bool)
deriving DecidableEq, Repr

namespace PyVal

/-- Python truthiness: `None`, `""`, `0` and `False` are falsy. -/
def truthy : PyVal → Bool
  | .none => false
  | .str s => s ≠ ""
  | .int n => n ≠ 0
  | .bool b => b

/-- `isinstance(v, str)`. -/
def isStr : PyVal → Bool
  | .str _ => true
  | _ => false

/-- `isinstance(v, int)`: in Python `bool` is a subclass of `int`,
so booleans pass this check. -/
def isInt : PyVal → Bool
  | .int _ => true
  | .bool _ => true
  | _ => false

/-- `isinstance(v, bool)`. -/
def isBool : PyVal → Bool
  | .bool _ => true
  | _ => false

/-- The string a validated `thought` field holds.  After validation the
field is a `str`; the default arm is unreachable there. -/
def asStr : PyVal → String
  | .str s => s
  | _ => ""

/-- The integer a validated numeric field denotes.  After validation the
field is an `int` or a `bool`; Python arithmetic treats `True` as `1`
and `False` as `0`.  The default arm is unreachable post-validation. -/
def asInt : PyVal → Int
  | .int n => n
  | .bool b => bif b then 1 else 0
  | _ => 0

/-- `bool(v)` where a validated `nextThoughtNeeded` is a genuine bool. -/
def asBool : PyVal → Bool
  | .bool b => b
  | _ => false

end PyVal

/-- The input dictionary handed to `process_thought`: the nine keys the
`sequentialthinking` tool always populates (possibly with `None`). -/
structure InputData where
  thought : PyVal
  thoughtNumber : PyVal
  totalThoughts : PyVal
  nextThoughtNeeded : PyVal
  isRevision : PyVal
  revisesThought : PyVal
  branchFromThought : PyVal
  branchId : PyVal
  needsMoreThoughts : PyVal
deriving DecidableEq, Repr

/-- `ThoughtData` (main.py lines 20-41).  The four required fields carry
their validated values; the optional fields keep the raw Python value,
because later code tests them only for truthiness. -/
structure ThoughtData where
  thought : String
  thought_number : Int
  total_thoughts : Int
  next_thought_needed : Bool
  is_revision : PyVal
  revises_thought : PyVal
  branch_from_thought : PyVal
  branch_id : PyVal
  needs_more_thoughts : PyVal
deriving DecidableEq, Repr

/-- `ThoughtData.from_dict` (main.py lines 43-55). -/
def ThoughtData.from_dict (d : InputData) : ThoughtData where
  thought := d.thought.asStr
  thought_number := d.thoughtNumber.asInt
  total_thoughts := d.totalThoughts.asInt
  next_thought_needed := d.nextThoughtNeeded.asBool
  is_revision := d.isRevision
  revises_thought := d.revisesThought
  branch_from_thought := d.branchFromThought
  branch_id := d.branchId
  needs_more_thoughts := d.needsMoreThoughts

/-- `SequentialThinkingServer.validate_thought_data` (main.py lines 63-76).
Each guard is `not value or not isinstance(value, T)` except the last,
which is `not isinstance(value, bool)`. -/
def validate_thought_data (d : InputData) : Except String ThoughtData :=
  if !d.thought.truthy || !d.thought.isStr then
    .error "Invalid thought: must be a string"
  else if !d.thoughtNumber.truthy || !d.thoughtNumber.isInt then
    .error "Invalid thoughtNumber: must be a number"
  else if !d.totalThoughts.truthy || !d.totalThoughts.isInt then
    .error "Invalid totalThoughts: must be a number"
  else if !d.nextThoughtNeeded.isBool then
    .error "Invalid nextThoughtNeeded: must be a boolean"
  else
    .ok (ThoughtData.from_dict d)

/-- State of one `SequentialThinkingServer` (main.py lines 58-61):
the append-only log and the branch index.  `branches` is a Python dict
keyed by the raw `branch_id` value, kept in insertion order. -/
structure ServerState where
  thought_history : List ThoughtData
  branches : List (PyVal × List ThoughtData)
deriving DecidableEq, Repr

/-- `SequentialThinkingServer.__init__`: empty log, empty branch index. -/
def initialServer : ServerState := { thought_history := [], branches := [] }

/-- Look up a key in an insertion-ordered dict (first matching entry). -/
def lookupA {β : Type} (l : List (PyVal × β)) (k : PyVal) : Option β :=
  match l with
  | [] => Option.none
  | (k', v) :: rest => if k' = k then some v else lookupA rest k

/-- `self.branches.setdefault(k, []).append(v)` in effect: main.py lines
112-114 create the key at the end of the dict on first use, then append. -/
def appendBranch (l : List (PyVal × List ThoughtData)) (k : PyVal)
    (v : ThoughtData) : List (PyVal × List ThoughtData) :=
  match l with
  | [] => [(k, [v])]
  | (k', vs) :: rest =>
      if k' = k then (k', vs ++ [v]) :: rest else (k', vs) :: appendBranch rest k v

/-- The dictionary returned by a successful `process_thought`
(main.py lines 119-125). -/
structure ProcessOutput where
  thoughtNumber : Int
  totalThoughts : Int
  nextThoughtNeeded : Bool
  branches : List PyVal
  thoughtHistoryLength : Nat
deriving DecidableEq, Repr

/-- `SequentialThinkingServer.process_thought` (main.py lines 102-127).
Validation failure raises before any mutation, so the state component of
the result is the unchanged input state.  The `format_thought` rendering
(printed to stderr) is observability-only and carries no state, so it is
not modelled. -/
def process_thought (st : ServerState) (d : InputData) :
    ServerState × Except String ProcessOutput :=
  match validate_thought_data d with
  | .error e => (st, .error e)
  | .ok v0 =>
      let v := if v0.total_thoughts < v0.thought_number
               then { v0 with total_thoughts := v0.thought_number } else v0
      let hist := st.thought_history ++ [v]
      let br := if v.branch_from_thought.truthy && v.branch_id.truthy
                then appendBranch st.branches v.branch_id v
                else st.branches
      ({ thought_history := hist, branches := br },
       .ok { thoughtNumber := v.thought_number,
             totalThoughts := v.total_thoughts,
             nextThoughtNeeded := v.next_thought_needed,
             branches := br.map (·.1),
             thoughtHistoryLength := hist.length })

/-- Run a sequence of `process_thought` calls against one session. -/
def runProcess (st : ServerState) : List InputData → ServerState
  | [] => st
  | d :: rest => runProcess (process_thought st d).1 rest

/-- One character of ASCII whitespace that Python `int(str)` strips. -/
def isPySpace (c : Char) : Bool :=
  c = ' ' || c = '\t' || c = '\n' || c = '\r' || c = '\x0b' || c = '\x0c'

/-- Digit run of a Python integer literal: after a digit, an underscore
may appear but must be followed by another digit. -/
def pyDigits (acc : Nat) : List Char → Option Nat
  | [] => some acc
  | c :: rest =>
      if c.isDigit then pyDigits (acc * 10 + (c.toNat - 48)) rest
      else if c = '_' then
        match rest with
        | d :: _ => if d.isDigit then pyDigits acc rest else Option.none
        | [] => Option.none
      else Option.none

/-- Digit run that must start with a digit (no leading underscore). -/
def pyDigitsStart : List Char → Option Nat
  | [] => Option.none
  | c :: rest => if c.isDigit then pyDigits 0 (c :: rest) else Option.none

/-- Python `int(s)` on a decimal string: optional surrounding whitespace,
optional sign, then digits with single interior underscores.  `none`
models the `ValueError` the constructor raises on anything else. -/
def pyParseInt (s : String) : Option Int :=
  let cs := ((s.toList.dropWhile isPySpace).reverse.dropWhile isPySpace).reverse
  match cs with
  | '+' :: rest => (pyDigitsStart rest).map Int.ofNat
  | '-' :: rest => (pyDigitsStart rest).map (fun n => -(n : Int))
  | rest => (pyDigitsStart rest).map Int.ofNat

/-- State of `ThinkingSessionManager` (main.py lines 131-137).  Both maps
are Python dicts keyed by the integer session id, kept in insertion
order; timestamps are abstract clock readings. -/
structure ManagerState where
  sessions : List (Int × ServerState)
  last_access : List (Int × Nat)
  next_id : Int
deriving DecidableEq, Repr

/-- `ThinkingSessionManager.MAX_SESSIONS`. -/
def maxSessions : Nat := 1000

/-- `ThinkingSessionManager.__init__`. -/
def initialManager : ManagerState :=
  { sessions := [], last_access := [], next_id := 1 }

/-- Look up a key in an insertion-ordered dict with integer keys. -/
def lookupI {β : Type} (l : List (Int × β)) (k : Int) : Option β :=
  match l with
  | [] => Option.none
  | (k', v) :: rest => if k' = k then some v else lookupI rest k

/-- Python dict assignment `d[k] = v`: overwrite in place if the key is
present (keeping its position), otherwise insert at the end. -/
def setI {β : Type} (l : List (Int × β)) (k : Int) (v : β) : List (Int × β) :=
  match l with
  | [] => [(k, v)]
  | (k', v') :: rest =>
      if k' = k then (k, v) :: rest else (k', v') :: setI rest k v

/-- Python `del d[k]` (guarded by `k in d` at every call site): remove
the entry for `k`, keeping the order of the others. -/
def removeI {β : Type} (l : List (Int × β)) (k : Int) : List (Int × β) :=
  match l with
  | [] => []
  | (k', v) :: rest => if k' = k then rest else (k', v) :: removeI rest k

/-- `min(items, key=lambda x: x[1])` over `best :: l`: the first element
attaining the minimal second component (Python's `min` keeps the earlier
element on ties). -/
def minByVal (best : Int × Nat) : List (Int × Nat) → Int × Nat
  | [] => best
  | p :: rest => minByVal (if p.2 < best.2 then p else best) rest

/-- `ThinkingSessionManager.remove_session` (main.py lines 177-183). -/
def remove_session (st : ManagerState) (id : Int) : ManagerState :=
  if (lookupI st.sessions id).isSome then
    { st with
      sessions := removeI st.sessions id
      last_access :=
        if (lookupI st.last_access id).isSome
        then removeI st.last_access id else st.last_access }
  else st

/-- `ThinkingSessionManager._cleanup_oldest_session` (main.py lines
139-147).  When `sessions` is nonempty but `last_access` is empty,
Python's `min` over an empty sequence would raise; the manager keeps
the two key sets equal, so that arm is unreachable and modelled as a
no-op. -/
def cleanup_oldest_session (st : ManagerState) : ManagerState :=
  match st.sessions with
  | [] => st
  | _ :: _ =>
      match st.last_access with
      | [] => st
      | p :: rest => remove_session st (minByVal p rest).1

/-- The creation tail of `get_or_create_session` (main.py lines 166-175):
evict when at capacity, then mint the next id with a fresh empty session. -/
def createNewSession (st : ManagerState) (now : Nat) : ManagerState × Int :=
  let st1 := if maxSessions ≤ st.sessions.length
             then cleanup_oldest_session st else st
  let newId := st1.next_id
  ({ sessions := setI st1.sessions newId initialServer
     last_access := setI st1.last_access newId now
     next_id := st1.next_id + 1 }, newId)

/-- `ThinkingSessionManager.get_or_create_session` (main.py lines
149-175).  `session_id` is the optional candidate string; `if session_id:`
is Python truthiness, so `None` and `""` both skip the reuse attempt, and
a string `int()` cannot parse falls through to creation.  The returned
server instance is `lookupI result.sessions id`. -/
def get_or_create_session (st : ManagerState) (now : Nat)
    (session_id : Option String) : ManagerState × Int :=
  match session_id with
  | some s =>
      if s ≠ "" then
        match pyParseInt s with
        | some n =>
            if (lookupI st.sessions n).isSome then
              ({ st with last_access := setI st.last_access n now }, n)
            else createNewSession st now
        | Option.none => createNewSession st now
      else createNewSession st now
  | Option.none => createNewSession st now

/-- `ThinkingSessionManager.update_access_time` (main.py lines 185-188). -/
def update_access_time (st : ManagerState) (now : Nat) (id : Int) :
    ManagerState :=
  if (lookupI st.sessions id).isSome then
    { st with last_access := setI st.last_access id now }
  else st

/-- Outcome of one iteration of the heartbeat loop in `send_heartbeat`
(main.py lines 316-361): the ping write succeeded, or it raised and the
inner `except Exception` handler logged it, or an `asyncio.CancelledError`
was delivered at a suspension point (sleep or send).  `CancelledError` is
not an `Exception` in Python ≥ 3.8, so the inner handler never swallows
it; it reaches the outer `except asyncio.CancelledError`. -/
inductive HBEvent where
  | sendOk
  | sendFail
  | cancel
deriving DecidableEq, Repr

/-- Whether the heartbeat loop is still running after consuming a finite
prefix of its iteration outcomes. -/
inductive HBExit where
  | running
  | cancelled
deriving DecidableEq, Repr

/-- Control-flow skeleton of the `while True` heartbeat loop: a failed
write is caught and the loop continues; only cancellation exits it. -/
def send_heartbeat : List HBEvent → HBExit
  | [] => .running
  | .cancel :: _ => .cancelled
  | .sendOk :: rest => send_heartbeat rest
  | .sendFail :: rest => send_heartbeat rest

/-- Whether an `Except` result is a success (the call did not raise). -/
def isOkE {ε α : Type} : Except ε α → Bool
  | .ok _ => true
  | .error _ => false

/-- Spec-side predicate: the `content` field is absent, empty, or not
text. -/
def contentMalformed : PyVal → Prop
  | .str s => s = ""
  | _ => True

/-- Spec-side predicate (amended from "not a positive integer"): a
required numeric field is absent, zero (including `False`), or not an
integer, where Python booleans count as integers. -/
def countMalformed : PyVal → Prop
  | .int n => n = 0
  | .bool b => b = false
  | _ => True

/-- Spec-side predicate: the `continuationNeeded` field is absent or not
a boolean. -/
def flagMalformed : PyVal → Prop
  | .bool _ => False
  | _ => True

/-- The ordered subsequence of a log consisting of the records that
declared branch id `b` together with a truthy `branchOrigin`; `b` itself
must be truthy, because a falsy `branch_id` never reaches the branch
index. -/
def branchView (hist : List ThoughtData) (b : PyVal) : List ThoughtData :=
  hist.filter fun r =>
    decide (r.branch_id = b) && r.branch_from_thought.truthy && b.truthy

/-- Well-formedness of the session store: the two dicts hold exactly the
same ids in the same order, without duplicates.  This holds for the
initial manager and is maintained by every manager operation. -/
def managerWF (st : ManagerState) : Prop :=
  st.sessions.map Prod.fst = st.last_access.map Prod.fst ∧
  (st.sessions.map Prod.fst).Nodup

/-- Whether `get_or_create_session` takes the reuse path: a truthy
candidate string that parses as an id already present in the store. -/
def sessionHit (st : ManagerState) (sid : Option String) : Bool :=
  match sid with
  | some s =>
      if s ≠ "" then
        match pyParseInt s with
        | some n => (lookupI st.sessions n).isSome
        | Option.none => false
      else false
  | Option.none => false

/-- A concrete store in which ids `1` and `2` tie on the minimal
`lastAccess` value `5`. -/
def tieStore : ManagerState :=
  { sessions := [(1, initialServer), (2, initialServer), (3, initialServer)],
    last_access := [(1, 5), (2, 5), (3, 9)],
    next_id := 4 }

/-- A concrete store holding one session whose `lastAccess` is `5`. -/
def touchStore : ManagerState :=
  { sessions := [(1, initialServer)],
    last_access := [(1, 5)],
    next_id := 2 }

/-- Reachability invariant of the session store: the two dicts are
well-formed, the access dict is in strictly increasing id order (ids are
minted by an increasing counter, in-place updates keep their slot,
deletions preserve order), and every stored id lies below the counter. -/
def managerInv (st : ManagerState) : Prop :=
  managerWF st ∧
  List.Pairwise (fun a b : Int × Nat => a.1 < b.1) st.last_access ∧
  ∀ p ∈ st.last_access, p.1 < st.next_id

theorem validate_ok_shape (d : InputData) (v : ThoughtData)
    (h : validate_thought_data d = .ok v) : v = ThoughtData.from_dict d := by
  unfold validate_thought_data at h
  repeat' split at h
  all_goals simp_all

theorem validate_ok_of_isOk (d : InputData)
    (h : isOkE (validate_thought_data d) = true) :
    validate_thought_data d = .ok (ThoughtData.from_dict d) := by
  cases heq : validate_thought_data d with
  | error e => rw [heq] at h; simp [isOkE] at h
  | ok v => rw [← validate_ok_shape d v heq]

/-- C1: on a validated call, if the submitted `sequenceNumber` exceeds the
submitted `totalEstimate`, the record is stored with `totalEstimate`
corrected to `sequenceNumber` and that corrected value is returned;
otherwise the submitted `totalEstimate` is returned (and the record is
stored as submitted). -/
theorem process_totalEstimate_correction (st : ServerState) (d : InputData)
    (h : isOkE (validate_thought_data d) = true) :
    (process_thought st d).2.map (fun o => o.totalThoughts) =
      Except.ok (if d.totalThoughts.asInt < d.thoughtNumber.asInt
                 then d.thoughtNumber.asInt else d.totalThoughts.asInt) ∧
    (process_thought st d).1.thought_history =
      st.thought_history ++
        [{ ThoughtData.from_dict d with
            total_thoughts :=
              if d.totalThoughts.asInt < d.thoughtNumber.asInt
              then d.thoughtNumber.asInt else d.totalThoughts.asInt }] := by
  have hv := validate_ok_of_isOk d h
  by_cases hlt : d.totalThoughts.asInt < d.thoughtNumber.asInt <;>
    simp [process_thought, hv, ThoughtData.from_dict, hlt, Except.map]

/-- Closed witness for C1 at a concrete over-claiming input
(`sequenceNumber = 5`, `totalEstimate = 3`): the returned and stored
`totalEstimate` are corrected to `5`. -/
theorem process_totalEstimate_correction_witness :
    (process_thought initialServer
        ⟨.str "step5", .int 5, .int 3, .bool false,
         .none, .none, .none, .none, .none⟩).2.map
        (fun o => o.totalThoughts) =
      Except.ok (if (PyVal.int 3).asInt < (PyVal.int 5).asInt
                 then (PyVal.int 5).asInt else (PyVal.int 3).asInt) ∧
    (process_thought initialServer
        ⟨.str "step5", .int 5, .int 3, .bool false,
         .none, .none, .none, .none, .none⟩).1.thought_history =
      initialServer.thought_history ++
        [{ ThoughtData.from_dict
            ⟨.str "step5", .int 5, .int 3, .bool false,
             .none, .none, .none, .none, .none⟩ with
            total_thoughts :=
              if (PyVal.int 3).asInt < (PyVal.int 5).asInt
              then (PyVal.int 5).asInt else (PyVal.int 3).asInt }] :=
  process_totalEstimate_correction initialServer
    ⟨.str "step5", .int 5, .int 3, .bool false,
     .none, .none, .none, .none, .none⟩ (by decide)

/-- C6: a call that fails validation raises and leaves the session state
(log and branches, hence `logLength`) exactly as it was. -/
theorem process_validation_failure_no_mutation (st : ServerState)
    (d : InputData) (e : String)
    (h : validate_thought_data d = .error e) :
    process_thought st d = (st, .error e) := by
  simp [process_thought, h]

/-- Closed witness for C6: an empty `content` is rejected and the state
is returned untouched. -/
theorem process_validation_failure_no_mutation_witness :
    process_thought initialServer
        ⟨.str "", .int 1, .int 1, .bool true,
         .none, .none, .none, .none, .none⟩ =
      (initialServer, .error "Invalid thought: must be a string") :=
  process_validation_failure_no_mutation initialServer
    ⟨.str "", .int 1, .int 1, .bool true,
     .none, .none, .none, .none, .none⟩
    "Invalid thought: must be a string" (by rfl)

/-- C9: the heartbeat loop exits exactly when a cancellation is delivered;
a failed ping write behaves as a no-op iteration (the loop continues), so
no write failure terminates the loop. -/
theorem heartbeat_exits_only_on_cancel (trace : List HBEvent) :
    (send_heartbeat trace = HBExit.cancelled ↔ HBEvent.cancel ∈ trace) ∧
    send_heartbeat (HBEvent.sendFail :: trace) = send_heartbeat trace := by
  refine ⟨?_, rfl⟩
  induction trace with
  | nil => simp [send_heartbeat]
  | cons e rest ih =>
      cases e <;> simp [send_heartbeat, ih]

theorem process_ok_appends (st : ServerState) (d : InputData)
    (h : isOkE (validate_thought_data d) = true) :
    (∃ v, (process_thought st d).1.thought_history =
      st.thought_history ++ [v]) ∧
    (process_thought st d).2.map (fun o => o.thoughtHistoryLength) =
      Except.ok (st.thought_history.length + 1) := by
  have hv := validate_ok_of_isOk d h
  constructor
  · exact ⟨(if (ThoughtData.from_dict d).total_thoughts <
              (ThoughtData.from_dict d).thought_number
            then { ThoughtData.from_dict d with
                    total_thoughts := (ThoughtData.from_dict d).thought_number }
            else ThoughtData.from_dict d), by simp [process_thought, hv]⟩
  · simp [process_thought, hv, Except.map]

theorem runProcess_append (l1 l2 : List InputData) : ∀ st : ServerState,
    runProcess st (l1 ++ l2) = runProcess (runProcess st l1) l2 := by
  induction l1 with
  | nil => intro st; rfl
  | cons d rest ih => intro st; simp only [List.cons_append, runProcess]; exact ih _

theorem runProcess_length (ds : List InputData) : ∀ st : ServerState,
    (∀ x ∈ ds, isOkE (validate_thought_data x) = true) →
    (runProcess st ds).thought_history.length =
      st.thought_history.length + ds.length := by
  induction ds with
  | nil => intro st _; simp [runProcess]
  | cons d rest ih =>
      intro st hall
      have hd := hall d (by simp)
      have hrest : ∀ x ∈ rest, isOkE (validate_thought_data x) = true :=
        fun x hx => hall x (by simp [hx])
      rw [runProcess, ih _ hrest]
      obtain ⟨v, hv⟩ := (process_ok_appends st d hd).1
      rw [hv]
      simp
      omega

/-- C2: a run of `N` validated `process` calls on one fresh session ends
with `thoughtHistoryLength` returned as `N` by the last call: every
successful call appends exactly one record and none removes or replaces
one. -/
theorem runProcess_logLength (ds : List InputData) (d : InputData)
    (h : ∀ x ∈ ds ++ [d], isOkE (validate_thought_data x) = true) :
    (process_thought (runProcess initialServer ds) d).2.map
        (fun o => o.thoughtHistoryLength) = Except.ok (ds.length + 1) ∧
    (runProcess initialServer (ds ++ [d])).thought_history.length =
      ds.length + 1 ∧
    ∃ v, (process_thought (runProcess initialServer ds) d).1.thought_history
        = (runProcess initialServer ds).thought_history ++ [v] := by
  have hds : ∀ x ∈ ds, isOkE (validate_thought_data x) = true :=
    fun x hx => h x (by simp [hx])
  have hd : isOkE (validate_thought_data d) = true := h d (by simp)
  have hlen := runProcess_length ds initialServer hds
  have happ := process_ok_appends (runProcess initialServer ds) d hd
  refine ⟨?_, ?_, happ.1⟩
  · rw [happ.2, hlen]; simp [initialServer]
  · rw [runProcess_append ds [d] initialServer]
    show (runProcess (process_thought (runProcess initialServer ds) d).1
      []).thought_history.length = ds.length + 1
    rw [runProcess]
    obtain ⟨v, hv⟩ := happ.1
    rw [hv]
    simp only [List.length_append, List.length_cons, List.length_nil, hlen]
    simp [initialServer]

/-- Closed witness for C2: two validated calls leave a log of length two,
reported by the second call. -/
theorem runProcess_logLength_witness :
    (process_thought
        (runProcess initialServer
          [⟨.str "a", .int 1, .int 2, .bool true,
            .none, .none, .none, .none, .none⟩])
        ⟨.str "b", .int 2, .int 2, .bool false,
         .none, .none, .none, .none, .none⟩).2.map
        (fun o => o.thoughtHistoryLength) = Except.ok (1 + 1) ∧
    (runProcess initialServer
        ([⟨.str "a", .int 1, .int 2, .bool true,
           .none, .none, .none, .none, .none⟩] ++
         [⟨.str "b", .int 2, .int 2, .bool false,
           .none, .none, .none, .none, .none⟩])).thought_history.length =
      1 + 1 ∧
    ∃ v, (process_thought
        (runProcess initialServer
          [⟨.str "a", .int 1, .int 2, .bool true,
            .none, .none, .none, .none, .none⟩])
        ⟨.str "b", .int 2, .int 2, .bool false,
         .none, .none, .none, .none, .none⟩).1.thought_history =
      (runProcess initialServer
        [⟨.str "a", .int 1, .int 2, .bool true,
          .none, .none, .none, .none, .none⟩]).thought_history ++ [v] :=
  runProcess_logLength
    [⟨.str "a", .int 1, .int 2, .bool true,
      .none, .none, .none, .none, .none⟩]
    ⟨.str "b", .int 2, .int 2, .bool false,
     .none, .none, .none, .none, .none⟩ (by decide)

/-- C3 counterexample: `totalEstimate = -1` is not a positive integer,
so per the claim validation must raise, yet `validate_thought_data`
accepts the input (the guard `not value` only rejects zero). -/
theorem validate_accepts_negative_totalEstimate :
    isOkE (validate_thought_data
      ⟨.str "step", .int 1, .int (-1), .bool true,
       .none, .none, .none, .none, .none⟩) = true ∧
    ¬ (0 : Int) < -1 := by decide

theorem isOkE_validate (d : InputData) :
    isOkE (validate_thought_data d) =
      ((d.thought.truthy && d.thought.isStr) &&
       (d.thoughtNumber.truthy && d.thoughtNumber.isInt) &&
       (d.totalThoughts.truthy && d.totalThoughts.isInt) &&
       d.nextThoughtNeeded.isBool) := by
  unfold validate_thought_data
  cases h1 : d.thought.truthy <;> cases h2 : d.thought.isStr <;>
  cases h3 : d.thoughtNumber.truthy <;> cases h4 : d.thoughtNumber.isInt <;>
  cases h5 : d.totalThoughts.truthy <;> cases h6 : d.totalThoughts.isInt <;>
  cases h7 : d.nextThoughtNeeded.isBool <;>
    simp [isOkE]

theorem contentMalformed_iff (v : PyVal) :
    (v.truthy = false ∨ v.isStr = false) ↔ contentMalformed v := by
  cases v <;> simp [PyVal.truthy, PyVal.isStr, contentMalformed]

theorem countMalformed_iff (v : PyVal) :
    (v.truthy = false ∨ v.isInt = false) ↔ countMalformed v := by
  cases v <;> simp [PyVal.truthy, PyVal.isInt, countMalformed]

theorem flagMalformed_iff (v : PyVal) :
    v.isBool = false ↔ flagMalformed v := by
  cases v <;> simp [PyVal.isBool, flagMalformed]

/-- C3 amended: validation raises exactly when `content` is
absent/empty/non-text, or `sequenceNumber` is absent, zero, or not an
integer (booleans count as integers, so any nonzero integer — negative
included — passes), or `totalEstimate` likewise, or `continuationNeeded`
is absent or not a boolean; every input passing these checks is
accepted. -/
theorem validate_error_characterization (d : InputData) :
    isOkE (validate_thought_data d) = false ↔
      contentMalformed d.thought ∨ countMalformed d.thoughtNumber ∨
      countMalformed d.totalThoughts ∨ flagMalformed d.nextThoughtNeeded := by
  rw [isOkE_validate]
  simp only [Bool.and_eq_false_iff]
  rw [← contentMalformed_iff, ← countMalformed_iff d.thoughtNumber,
    ← countMalformed_iff d.totalThoughts, ← flagMalformed_iff]
  tauto

theorem lookupA_appendBranch_self (l : List (PyVal × List ThoughtData))
    (k : PyVal) (v : ThoughtData) :
    lookupA (appendBranch l k v) k = some ((lookupA l k).getD [] ++ [v]) := by
  induction l with
  | nil => simp [appendBranch, lookupA]
  | cons p rest ih =>
      obtain ⟨k', vs⟩ := p
      by_cases hk : k' = k <;> simp [appendBranch, lookupA, hk, ih]

theorem lookupA_appendBranch_ne (l : List (PyVal × List ThoughtData))
    (k b : PyVal) (v : ThoughtData) (h : k ≠ b) :
    lookupA (appendBranch l k v) b = lookupA l b := by
  induction l with
  | nil => simp [appendBranch, lookupA, h]
  | cons p rest ih =>
      obtain ⟨k', vs⟩ := p
      by_cases hk : k' = k
      · subst hk; simp [appendBranch, lookupA, h]
      · by_cases hb : k' = b
        · subst hb; simp [appendBranch, lookupA, hk]
        · simp [appendBranch, lookupA, hk, hb, ih]

theorem process_ok_unfold (st : ServerState) (d : InputData)
    (v0 : ThoughtData) (h : validate_thought_data d = .ok v0) :
    ∃ w : ThoughtData,
      w.branch_id = v0.branch_id ∧
      w.branch_from_thought = v0.branch_from_thought ∧
      (process_thought st d).1 =
        { thought_history := st.thought_history ++ [w],
          branches :=
            if v0.branch_from_thought.truthy && v0.branch_id.truthy
            then appendBranch st.branches v0.branch_id w
            else st.branches } := by
  refine ⟨if v0.total_thoughts < v0.thought_number
          then { v0 with total_thoughts := v0.thought_number } else v0,
          ?_, ?_, ?_⟩ <;>
    by_cases hlt : v0.total_thoughts < v0.thought_number <;>
      simp [process_thought, h, hlt]

theorem branchView_append (hist : List ThoughtData) (w : ThoughtData)
    (b : PyVal) :
    branchView (hist ++ [w]) b =
      branchView hist b ++
        (if decide (w.branch_id = b) && w.branch_from_thought.truthy &&
            b.truthy
         then [w] else []) := by
  by_cases hpw : (decide (w.branch_id = b) && w.branch_from_thought.truthy &&
      b.truthy) = true <;>
    simp [branchView, List.filter_append, hpw]

theorem branch_inv_step (st : ServerState) (d : InputData)
    (h : ∀ b, lookupA st.branches b =
      (if branchView st.thought_history b = [] then Option.none
       else some (branchView st.thought_history b))) :
    ∀ b, lookupA (process_thought st d).1.branches b =
      (if branchView (process_thought st d).1.thought_history b = []
       then Option.none
       else some (branchView (process_thought st d).1.thought_history b)) := by
  intro b
  cases heq : validate_thought_data d with
  | error e => simp only [process_thought, heq]; exact h b
  | ok v0 =>
      obtain ⟨w, hbid, hbft, hst⟩ := process_ok_unfold st d v0 heq
      rw [hst]
      dsimp only
      rw [branchView_append]
      by_cases hcond : (v0.branch_from_thought.truthy &&
          v0.branch_id.truthy) = true
      · rw [if_pos hcond]
        obtain ⟨hft, hid⟩ := Bool.and_eq_true _ _ |>.mp hcond
        by_cases hb : v0.branch_id = b
        · subst hb
          have hpred : (decide (w.branch_id = v0.branch_id) &&
              w.branch_from_thought.truthy && v0.branch_id.truthy) = true := by
            simp [hbid, hbft, hft, hid]
          rw [lookupA_appendBranch_self, h v0.branch_id]
          by_cases hold : branchView st.thought_history v0.branch_id = [] <;>
            simp [hold, hpred]
        · have hpred : (decide (w.branch_id = b) &&
              w.branch_from_thought.truthy && b.truthy) = false := by
            simp [hbid, hb]
          rw [lookupA_appendBranch_ne _ _ _ _ hb]
          simp [hpred, h b]
      · rw [if_neg hcond]
        have hpred : (decide (w.branch_id = b) &&
            w.branch_from_thought.truthy && b.truthy) = false := by
          rcases Bool.and_eq_false_iff.mp
              (Bool.eq_false_iff.mpr hcond) with hf | hf
          · simp [hbft, hf]
          · by_cases hb : v0.branch_id = b
            · subst hb; simp [hf]
            · simp [hbid, hb]
        simp [hpred, h b]

/-- C5 amended: in every reachable session state, `branches[b]` is
exactly the ordered subsequence of the log consisting of the records
that declared branch id `b` together with a truthy (present and nonzero)
`branchOrigin` — i.e. a record is indexed exactly when both
`branchOrigin` and `branchId` are present and truthy, with the entry
created on first use and absent otherwise. -/
theorem branches_are_filtered_views (ds : List InputData) (b : PyVal) :
    lookupA (runProcess initialServer ds).branches b =
      (if branchView (runProcess initialServer ds).thought_history b = []
       then Option.none
       else some (branchView (runProcess initialServer ds).thought_history b)) := by
  suffices h : ∀ st : ServerState,
      (∀ b, lookupA st.branches b =
        (if branchView st.thought_history b = [] then Option.none
         else some (branchView st.thought_history b))) →
      ∀ b, lookupA (runProcess st ds).branches b =
        (if branchView (runProcess st ds).thought_history b = []
         then Option.none
         else some (branchView (runProcess st ds).thought_history b)) by
    exact h initialServer
      (by intro b; simp [initialServer, lookupA, branchView]) b
  clear b
  induction ds with
  | nil => intro st h b; exact h b
  | cons d rest ih =>
      intro st h b
      rw [runProcess]
      exact ih _ (branch_inv_step st d h) b

/-- C5 counterexample: a record submitted with `branchOrigin = 0` and
`branchId = "b"` — both fields present — is appended to the log but not
to `branches["b"]` (Python truthiness treats `0` as absent), so
`branches` is not the subsequence of records that declared the id, and
the both-present append condition fails. -/
theorem branch_index_ignores_falsy_origin :
    (process_thought initialServer
      ⟨.str "t", .int 1, .int 1, .bool true,
       .none, .none, .int 0, .str "b", .none⟩).1.branches = [] ∧
    (process_thought initialServer
      ⟨.str "t", .int 1, .int 1, .bool true,
       .none, .none, .int 0, .str "b", .none⟩).1.thought_history.map
        (fun r => r.branch_id) = [.str "b"] ∧
    (⟨.str "t", .int 1, .int 1, .bool true,
      .none, .none, .int 0, .str "b", .none⟩ : InputData).branchFromThought
      ≠ PyVal.none ∧
    (⟨.str "t", .int 1, .int 1, .bool true,
      .none, .none, .int 0, .str "b", .none⟩ : InputData).branchId =
      PyVal.str "b" := by decide

theorem lookupI_isSome_iff {β : Type} (l : List (Int × β)) (k : Int) :
    (lookupI l k).isSome = true ↔ k ∈ l.map Prod.fst := by
  induction l with
  | nil => simp [lookupI]
  | cons p rest ih =>
      obtain ⟨k', v⟩ := p
      by_cases hk : k' = k
      · subst hk; simp [lookupI]
      · simp [lookupI, hk, ih, Ne.symm hk]

theorem lookupI_setI_self {β : Type} (l : List (Int × β)) (k : Int) (v : β) :
    lookupI (setI l k v) k = some v := by
  induction l with
  | nil => simp [setI, lookupI]
  | cons p rest ih =>
      obtain ⟨k', v'⟩ := p
      by_cases hk : k' = k <;> simp [setI, lookupI, hk, ih]

theorem removeI_length {β : Type} (l : List (Int × β)) (k : Int)
    (h : (lookupI l k).isSome = true) :
    (removeI l k).length + 1 = l.length := by
  induction l with
  | nil => simp [lookupI] at h
  | cons p rest ih =>
      obtain ⟨k', v⟩ := p
      by_cases hk : k' = k
      · simp [removeI, hk]
      · have hrest : (lookupI rest k).isSome = true := by
          simpa [lookupI, hk] using h
        simp only [removeI, if_neg hk, List.length_cons, ih hrest]

theorem setI_length_le {β : Type} (l : List (Int × β)) (k : Int) (v : β) :
    (setI l k v).length ≤ l.length + 1 := by
  induction l with
  | nil => simp [setI]
  | cons p rest ih =>
      obtain ⟨k', v'⟩ := p
      by_cases hk : k' = k
      · simp only [setI, if_pos hk, List.length_cons]
        omega
      · simp only [setI, if_neg hk, List.length_cons]
        omega

theorem minByVal_mem (best : Int × Nat) (l : List (Int × Nat)) :
    minByVal best l = best ∨ minByVal best l ∈ l := by
  induction l generalizing best with
  | nil => left; rfl
  | cons p rest ih =>
      rw [minByVal]
      rcases ih (if p.2 < best.2 then p else best) with h | h
      · by_cases hp : p.2 < best.2
        · right; rw [h, if_pos hp]; exact List.mem_cons_self _ _
        · left; rw [h, if_neg hp]
      · right; exact List.mem_cons_of_mem _ h

theorem minByVal_le (best : Int × Nat) (l : List (Int × Nat)) :
    (minByVal best l).2 ≤ best.2 ∧ ∀ q ∈ l, (minByVal best l).2 ≤ q.2 := by
  induction l generalizing best with
  | nil => exact ⟨le_refl _, by simp⟩
  | cons p rest ih =>
      rw [minByVal]
      obtain ⟨h1, h2⟩ := ih (if p.2 < best.2 then p else best)
      have hmin : (if p.2 < best.2 then p else best).2 ≤ best.2 ∧
          (if p.2 < best.2 then p else best).2 ≤ p.2 := by
        by_cases hp : p.2 < best.2 <;> (simp [hp]; omega)
      refine ⟨le_trans h1 hmin.1, ?_⟩
      intro q hq
      rcases List.mem_cons.mp hq with rfl | hq'
      · exact le_trans h1 hmin.2
      · exact h2 q hq'

theorem minByVal_sorted_tie (rest : List (Int × Nat)) :
    ∀ best : Int × Nat,
    List.Pairwise (fun a b : Int × Nat => a.1 < b.1) (best :: rest) →
    ∀ q ∈ best :: rest, q.2 = (minByVal best rest).2 →
      (minByVal best rest).1 ≤ q.1 := by
  induction rest with
  | nil =>
      intro best _ q hq heq
      rcases List.mem_cons.mp hq with rfl | hq'
      · exact le_refl _
      · simp at hq'
  | cons p rest ih =>
      intro best hs q hq heq
      obtain ⟨hbest, hrest⟩ := List.pairwise_cons.mp hs
      by_cases hp : p.2 < best.2
      · rw [minByVal, if_pos hp] at heq ⊢
        rcases List.mem_cons.mp hq with rfl | hq'
        · -- q = best: impossible, the running minimum is below best
          have hle := (minByVal_le p rest).1
          omega
        · exact ih p hrest q hq' heq
      · rw [minByVal, if_neg hp] at heq ⊢
        have hs' : List.Pairwise (fun a b : Int × Nat => a.1 < b.1)
            (best :: rest) := by
          refine List.pairwise_cons.mpr ⟨?_, ?_⟩
          · exact fun x hx => hbest x (List.mem_cons_of_mem _ hx)
          · exact (List.pairwise_cons.mp hrest).2
        rcases List.mem_cons.mp hq with rfl | hq'
        · exact ih q hs' q (List.mem_cons_self _ _) heq
        rcases List.mem_cons.mp hq' with rfl | hq''
        · -- q = p: the minimum value also occurs at best, whose id is smaller
          have hle := (minByVal_le best rest).1
          have hbq : best.2 = (minByVal best rest).2 := by omega
          have hje := ih best hs' best (List.mem_cons_self _ _) hbq
          have hbp : best.1 < q.1 := hbest q (List.mem_cons_self _ _)
          omega
        · exact ih best hs' q (List.mem_cons_of_mem _ hq'') heq

theorem remove_session_sessions (st : ManagerState) (j : Int)
    (h : (lookupI st.sessions j).isSome = true) :
    (remove_session st j).sessions = removeI st.sessions j := by
  simp [remove_session, h]

theorem remove_session_next_id (st : ManagerState) (j : Int) :
    (remove_session st j).next_id = st.next_id := by
  unfold remove_session
  split <;> rfl

theorem cleanup_next_id (st : ManagerState) :
    (cleanup_oldest_session st).next_id = st.next_id := by
  unfold cleanup_oldest_session
  split
  · rfl
  · split
    · rfl
    · exact remove_session_next_id st _

theorem cleanup_spec (st : ManagerState) (hwf : managerWF st)
    (hne : st.sessions ≠ []) :
    ∃ j t, (j, t) ∈ st.last_access ∧ (∀ q ∈ st.last_access, t ≤ q.2) ∧
      cleanup_oldest_session st = remove_session st j ∧
      (lookupI st.sessions j).isSome = true ∧
      (List.Pairwise (fun a b : Int × Nat => a.1 < b.1) st.last_access →
        ∀ q ∈ st.last_access, q.2 = t → j ≤ q.1) := by
  obtain ⟨hkeys, hnd⟩ := hwf
  cases hla : st.last_access with
  | nil =>
      rw [hla] at hkeys
      cases hse : st.sessions with
      | nil => exact absurd hse hne
      | cons a l => rw [hse] at hkeys; simp at hkeys
  | cons p rest =>
      refine ⟨(minByVal p rest).1, (minByVal p rest).2, ?_, ?_, ?_, ?_, ?_⟩
      · simp only [Prod.mk.eta]
        rcases minByVal_mem p rest with h | h
        · rw [h]; exact List.mem_cons_self _ _
        · exact List.mem_cons_of_mem _ h
      · intro q hq
        rcases List.mem_cons.mp hq with rfl | hq'
        · exact (minByVal_le q rest).1
        · exact (minByVal_le p rest).2 q hq'
      · cases hse : st.sessions with
        | nil => exact absurd hse hne
        | cons a l => simp [cleanup_oldest_session, hse, hla]
      · rw [lookupI_isSome_iff, hkeys, hla]
        have hmem : minByVal p rest ∈ p :: rest := by
          rcases minByVal_mem p rest with h | h
          · rw [h]; exact List.mem_cons_self _ _
          · exact List.mem_cons_of_mem _ h
        exact List.mem_map_of_mem Prod.fst hmem
      · intro hsort q hq heq
        exact minByVal_sorted_tie rest p hsort q hq heq

theorem get_or_create_sessionHit_false (st : ManagerState) (now : Nat)
    (sid : Option String) (h : sessionHit st sid = false) :
    get_or_create_session st now sid = createNewSession st now := by
  cases sid with
  | none => rfl
  | some s =>
      by_cases hne : s = ""
      · subst hne; simp [get_or_create_session]
      · cases hp : pyParseInt s with
        | none => simp [get_or_create_session, hne, hp]
        | some n =>
            have hlk : (lookupI st.sessions n).isSome = false := by
              simpa [sessionHit, hne, hp] using h
            simp [get_or_create_session, hne, hp, hlk]

theorem get_or_create_sessionHit_true (st : ManagerState) (now : Nat)
    (sid : Option String) (h : sessionHit st sid = true) :
    ∃ s n, sid = some s ∧ pyParseInt s = some n ∧
      (lookupI st.sessions n).isSome = true ∧
      get_or_create_session st now sid =
        ({ st with last_access := setI st.last_access n now }, n) := by
  cases sid with
  | none => simp [sessionHit] at h
  | some s =>
      by_cases hne : s = ""
      · subst hne; simp [sessionHit] at h
      · cases hp : pyParseInt s with
        | none => simp [sessionHit, hne, hp] at h
        | some n =>
            have hlk : (lookupI st.sessions n).isSome = true := by
              simpa [sessionHit, hne, hp] using h
            exact ⟨s, n, rfl, hp, hlk,
              by simp [get_or_create_session, hne, hp, hlk]⟩

/-- C4: after any `get_or_create_session` call on a well-formed store the
session count stays within `MAX_SESSIONS`; when the store is full and a
new session must be created, exactly one existing session — one holding
the minimal `lastAccess` value — is removed before the fresh session is
inserted under the next id. -/
theorem store_bounded_and_evicts_lru (st : ManagerState) (now : Nat)
    (sid : Option String) (hwf : managerWF st)
    (hlen : st.sessions.length ≤ maxSessions) :
    (get_or_create_session st now sid).1.sessions.length ≤ maxSessions ∧
    (sessionHit st sid = false → st.sessions.length = maxSessions →
      ∃ j t, (j, t) ∈ st.last_access ∧ (∀ q ∈ st.last_access, t ≤ q.2) ∧
        (get_or_create_session st now sid).1.sessions =
          setI (removeI st.sessions j) st.next_id initialServer) := by
  by_cases hhit : sessionHit st sid = true
  · obtain ⟨s, n, hsid, hp, hlk, heq⟩ :=
      get_or_create_sessionHit_true st now sid hhit
    rw [heq]
    exact ⟨hlen, fun hf => absurd hhit (by simp [hf])⟩
  · have hmiss := get_or_create_sessionHit_false st now sid
      (Bool.eq_false_iff.mpr hhit)
    rw [hmiss]
    by_cases hcap : st.sessions.length = maxSessions
    · have hne : st.sessions ≠ [] := by
        intro h0
        rw [h0] at hcap
        simp [maxSessions] at hcap
      obtain ⟨j, t, hmem, hmin, hcl, hlk, _⟩ := cleanup_spec st hwf hne
      have hguard : maxSessions ≤ st.sessions.length := le_of_eq hcap.symm
      have hclen := removeI_length st.sessions j hlk
      have hout : (createNewSession st now).1.sessions =
          setI (removeI st.sessions j) st.next_id initialServer := by
        simp only [createNewSession, if_pos hguard]
        rw [hcl, remove_session_sessions st j hlk, remove_session_next_id]
      constructor
      · rw [hout]
        have hsle := setI_length_le (removeI st.sessions j) st.next_id
          initialServer
        omega
      · intro _ _
        exact ⟨j, t, hmem, hmin, hout⟩
    · have hguard : ¬ maxSessions ≤ st.sessions.length := by omega
      constructor
      · have hout : (createNewSession st now).1.sessions =
            setI st.sessions st.next_id initialServer := by
          simp [createNewSession, hguard]
        rw [hout]
        have hsle := setI_length_le st.sessions st.next_id initialServer
        omega
      · intro _ hcap'
        exact absurd hcap' hcap

/-- Closed witness for C4 at the empty store: one creation stays within
the bound. -/
theorem store_bounded_and_evicts_lru_witness :
    (get_or_create_session initialManager 0 Option.none).1.sessions.length ≤
        maxSessions ∧
    (sessionHit initialManager Option.none = false →
      initialManager.sessions.length = maxSessions →
      ∃ j t, (j, t) ∈ initialManager.last_access ∧
        (∀ q ∈ initialManager.last_access, t ≤ q.2) ∧
        (get_or_create_session initialManager 0 Option.none).1.sessions =
          setI (removeI initialManager.sessions j) initialManager.next_id
            initialServer) :=
  store_bounded_and_evicts_lru initialManager 0 Option.none
    ⟨rfl, by simp [initialManager]⟩ (by decide)

/-- C7: when several sessions share the minimal `lastAccess` value,
`_cleanup_oldest_session` evicts the one with the smallest id among
them: Python's `min` keeps the first minimal item, and in every
reachable store the access dict is ordered by strictly increasing id
(ids are minted by an increasing counter and updates keep their slot). -/
theorem eviction_tie_break_smallest_id (st : ManagerState)
    (hwf : managerWF st)
    (hsorted : List.Pairwise (fun a b : Int × Nat => a.1 < b.1)
      st.last_access)
    (hne : st.sessions ≠ []) :
    ∃ j t, (j, t) ∈ st.last_access ∧
      (∀ q ∈ st.last_access, t ≤ q.2) ∧
      (∀ q ∈ st.last_access, q.2 = t → j ≤ q.1) ∧
      cleanup_oldest_session st = remove_session st j := by
  obtain ⟨j, t, hmem, hmin, hcl, _, htie⟩ := cleanup_spec st hwf hne
  exact ⟨j, t, hmem, hmin, htie hsorted, hcl⟩

/-- Closed witness for C7: ids `1` and `2` tie on `lastAccess = 5`;
session `1` is the eviction choice. -/
theorem eviction_tie_break_smallest_id_witness :
    ∃ j t,
      (j, t) ∈ tieStore.last_access ∧
      (∀ q ∈ tieStore.last_access, t ≤ q.2) ∧
      (∀ q ∈ tieStore.last_access, q.2 = t → j ≤ q.1) ∧
      cleanup_oldest_session tieStore = remove_session tieStore j :=
  eviction_tie_break_smallest_id tieStore
    ⟨rfl, by decide⟩ (by decide) (by decide)

/-- C8 counterexample: `update_access_time` merely stores the current
clock reading; on a present id, a touch performed when the clock reads
the stored value `5` leaves `lastAccess` at `5` — no strict increase. -/
theorem touch_same_clock_no_increase :
    (lookupI touchStore.sessions 1).isSome = true ∧
    lookupI touchStore.last_access 1 = some 5 ∧
    lookupI (update_access_time touchStore 5 1).last_access 1 = some 5 ∧
    ¬ (5 : Nat) < 5 := by decide

/-- C8 amended: `touch` on a present id sets its `lastAccess` to the
current clock reading, so it strictly increases the stored value exactly
when the clock has advanced past it. -/
theorem touch_updates_to_now (st : ManagerState) (now : Nat) (id : Int)
    (t : Nat) (hs : (lookupI st.sessions id).isSome = true)
    (_ht : lookupI st.last_access id = some t) (hlt : t < now) :
    lookupI (update_access_time st now id).last_access id = some now ∧
    t < now := by
  refine ⟨?_, hlt⟩
  simp [update_access_time, hs, lookupI_setI_self]

/-- Closed witness for C8 (amended): touching id `1` when the clock has
advanced from `5` to `7` raises its `lastAccess` to `7`. -/
theorem touch_updates_to_now_witness :
    lookupI (update_access_time touchStore 7 1).last_access 1 = some 7 ∧
    (5 : Nat) < 7 :=
  touch_updates_to_now touchStore 7 1 5 (by decide) (by decide) (by decide)

/-- C10: a candidate session id string that `int()` cannot parse raises
no error and is treated exactly like an absent candidate: the store
mints a fresh empty session under the `nextId` counter value. -/
theorem unparseable_hint_mints_fresh (st : ManagerState) (now : Nat)
    (s : String) (h : pyParseInt s = Option.none) :
    get_or_create_session st now (some s) =
      get_or_create_session st now Option.none ∧
    (get_or_create_session st now (some s)).2 = st.next_id ∧
    lookupI (get_or_create_session st now (some s)).1.sessions st.next_id =
      some initialServer := by
  have hsome : get_or_create_session st now (some s) =
      createNewSession st now := by
    by_cases hne : s = ""
    · subst hne; simp [get_or_create_session]
    · simp [get_or_create_session, hne, h]
  have h2 : (createNewSession st now).2 = st.next_id := by
    by_cases hcap : maxSessions ≤ st.sessions.length <;>
      simp [createNewSession, hcap, cleanup_next_id]
  have h3 : lookupI (createNewSession st now).1.sessions st.next_id =
      some initialServer := by
    by_cases hcap : maxSessions ≤ st.sessions.length <;>
      simp [createNewSession, hcap, cleanup_next_id, lookupI_setI_self]
  exact ⟨by rw [hsome]; rfl, by rw [hsome]; exact h2, by rw [hsome]; exact h3⟩

/-- Closed witness for C10 at the malformed candidate `"abc"` on the
empty store. -/
theorem unparseable_hint_mints_fresh_witness :
    get_or_create_session initialManager 0 (some "abc") =
      get_or_create_session initialManager 0 Option.none ∧
    (get_or_create_session initialManager 0 (some "abc")).2 =
      initialManager.next_id ∧
    lookupI (get_or_create_session initialManager 0
        (some "abc")).1.sessions initialManager.next_id =
      some initialServer :=
  unparseable_hint_mints_fresh initialManager 0 "abc" (by decide)

theorem setI_of_not_mem {β : Type} (l : List (Int × β)) (k : Int) (v : β)
    (h : k ∉ l.map Prod.fst) : setI l k v = l ++ [(k, v)] := by
  induction l with
  | nil => rfl
  | cons p rest ih =>
      obtain ⟨k', v'⟩ := p
      have h1 : k' ≠ k := fun he => h (by simp [he])
      have h2 : k ∉ rest.map Prod.fst := fun hm => h (by simp [hm])
      simp [setI, h1, ih h2]

theorem setI_map_fst_of_mem {β : Type} (l : List (Int × β)) (k : Int) (v : β)
    (h : k ∈ l.map Prod.fst) : (setI l k v).map Prod.fst = l.map Prod.fst := by
  induction l with
  | nil => simp at h
  | cons p rest ih =>
      obtain ⟨k', v'⟩ := p
      by_cases hk : k' = k
      · simp [setI, hk]
      · have h2 : k ∈ rest.map Prod.fst := by
          rw [List.map_cons] at h
          rcases List.mem_cons.mp h with he | hm
          · exact absurd he.symm hk
          · exact hm
        simp [setI, hk, ih h2]

theorem removeI_sublist {β : Type} (l : List (Int × β)) (k : Int) :
    List.Sublist (removeI l k) l := by
  induction l with
  | nil => simp [removeI]
  | cons p rest ih =>
      obtain ⟨k', v⟩ := p
      by_cases hk : k' = k
      · simp only [removeI, if_pos hk]
        exact (List.Sublist.refl rest).cons _
      · simp only [removeI, if_neg hk]
        exact ih.cons₂ _

theorem removeI_map_fst {β : Type} (l : List (Int × β)) (k : Int) :
    (removeI l k).map Prod.fst = (l.map Prod.fst).erase k := by
  induction l with
  | nil => simp [removeI]
  | cons p rest ih =>
      obtain ⟨k', v⟩ := p
      by_cases hk : k' = k
      · subst hk; simp [removeI, List.erase_cons]
      · simp [removeI, hk, ih, List.erase_cons]

theorem managerInv_setI_access (st : ManagerState) (n : Int) (now : Nat)
    (h : managerInv st) (hmemS : n ∈ st.sessions.map Prod.fst) :
    managerInv { st with last_access := setI st.last_access n now } := by
  obtain ⟨⟨hkeys, hnd⟩, hsort, hbound⟩ := h
  have hmem : n ∈ st.last_access.map Prod.fst := by rw [← hkeys]; exact hmemS
  have hfst := setI_map_fst_of_mem st.last_access n now hmem
  refine ⟨⟨?_, hnd⟩, ?_, ?_⟩
  · show st.sessions.map Prod.fst = (setI st.last_access n now).map Prod.fst
    rw [hfst]; exact hkeys
  · show List.Pairwise (fun a b : Int × Nat => a.1 < b.1)
      (setI st.last_access n now)
    have h1 : List.Pairwise (fun a b : Int => a < b)
        (st.last_access.map Prod.fst) := List.pairwise_map.mpr hsort
    have h2 : List.Pairwise (fun a b : Int => a < b)
        ((setI st.last_access n now).map Prod.fst) := by
      rw [hfst]; exact h1
    exact List.pairwise_map.mp h2
  · show ∀ p ∈ setI st.last_access n now, p.1 < st.next_id
    intro p hp
    have hin : p.1 ∈ (setI st.last_access n now).map Prod.fst :=
      List.mem_map_of_mem _ hp
    rw [hfst] at hin
    obtain ⟨q, hq, hqe⟩ := List.mem_map.mp hin
    have := hbound q hq
    simp only [hqe] at this
    exact this

theorem managerInv_remove (st : ManagerState) (j : Int)
    (h : managerInv st) : managerInv (remove_session st j) := by
  obtain ⟨⟨hkeys, hnd⟩, hsort, hbound⟩ := h
  unfold remove_session
  split
  next hs =>
    split
    next =>
      refine ⟨⟨?_, ?_⟩, ?_, ?_⟩
      · show (removeI st.sessions j).map Prod.fst =
          (removeI st.last_access j).map Prod.fst
        rw [removeI_map_fst, removeI_map_fst, hkeys]
      · show ((removeI st.sessions j).map Prod.fst).Nodup
        rw [removeI_map_fst]; exact hnd.erase _
      · show List.Pairwise (fun a b : Int × Nat => a.1 < b.1)
          (removeI st.last_access j)
        exact List.Pairwise.sublist (removeI_sublist _ _) hsort
      · show ∀ p ∈ removeI st.last_access j, p.1 < st.next_id
        intro p hp
        exact hbound p ((removeI_sublist _ _).subset hp)
    next hla =>
      exfalso
      have : j ∈ st.last_access.map Prod.fst := by
        rw [← hkeys]; exact (lookupI_isSome_iff _ _).mp hs
      exact hla ((lookupI_isSome_iff _ _).mpr this)
  next =>
    exact ⟨⟨hkeys, hnd⟩, hsort, hbound⟩

theorem managerInv_cleanup (st : ManagerState) (h : managerInv st) :
    managerInv (cleanup_oldest_session st) := by
  unfold cleanup_oldest_session
  split
  · exact h
  · split
    · exact h
    · exact managerInv_remove st _ h

theorem managerInv_createNew (st : ManagerState) (now : Nat)
    (h : managerInv st) : managerInv (createNewSession st now).1 := by
  have h1 : managerInv (if maxSessions ≤ st.sessions.length
      then cleanup_oldest_session st else st) := by
    split
    · exact managerInv_cleanup st h
    · exact h
  unfold createNewSession
  dsimp only
  set st1 := (if maxSessions ≤ st.sessions.length
      then cleanup_oldest_session st else st) with hst1
  obtain ⟨⟨hkeys1, hnd1⟩, hsort1, hbound1⟩ := h1
  have hnotmemA : st1.next_id ∉ st1.last_access.map Prod.fst := by
    intro hmem
    obtain ⟨q, hq, hqe⟩ := List.mem_map.mp hmem
    have := hbound1 q hq
    omega
  have hnotmemS : st1.next_id ∉ st1.sessions.map Prod.fst := by
    rw [hkeys1]; exact hnotmemA
  have heqS := setI_of_not_mem st1.sessions st1.next_id initialServer hnotmemS
  have heqA := setI_of_not_mem st1.last_access st1.next_id now hnotmemA
  refine ⟨⟨?_, ?_⟩, ?_, ?_⟩
  · show (setI st1.sessions st1.next_id initialServer).map Prod.fst =
      (setI st1.last_access st1.next_id now).map Prod.fst
    rw [heqS, heqA]
    simp [hkeys1]
  · show ((setI st1.sessions st1.next_id initialServer).map Prod.fst).Nodup
    rw [heqS]
    simp only [List.map_append, List.map_cons, List.map_nil]
    rw [List.nodup_append]
    refine ⟨hnd1, by simp, ?_⟩
    intro a ha hmem
    simp only [List.mem_cons, List.not_mem_nil, or_false] at hmem
    subst hmem
    exact hnotmemS ha
  · show List.Pairwise (fun a b : Int × Nat => a.1 < b.1)
      (setI st1.last_access st1.next_id now)
    rw [heqA, List.pairwise_append]
    refine ⟨hsort1, by simp, ?_⟩
    intro a ha b hb
    simp only [List.mem_cons, List.not_mem_nil, or_false] at hb
    subst hb
    exact hbound1 a ha
  · show ∀ p ∈ setI st1.last_access st1.next_id now, p.1 < st1.next_id + 1
    rw [heqA]
    intro p hp
    rcases List.mem_append.mp hp with hp' | hp'
    · have := hbound1 p hp'
      omega
    · simp only [List.mem_cons, List.not_mem_nil, or_false] at hp'
      subst hp'
      omega

/-- The store invariant holds initially. -/
theorem managerInv_initial : managerInv initialManager := by
  refine ⟨⟨rfl, ?_⟩, ?_, ?_⟩ <;> simp [initialManager]

/-- The store invariant is preserved by `get_or_create_session`; with
`managerInv_update_access_time` this justifies the well-formedness and
sortedness hypotheses of the C4 and C7 theorems on every reachable
store. -/
theorem managerInv_get_or_create (st : ManagerState) (now : Nat)
    (sid : Option String) (h : managerInv st) :
    managerInv (get_or_create_session st now sid).1 := by
  by_cases hhit : sessionHit st sid = true
  · obtain ⟨s, n, hsid, hp, hlk, heq⟩ :=
      get_or_create_sessionHit_true st now sid hhit
    rw [heq]
    exact managerInv_setI_access st n now h ((lookupI_isSome_iff _ _).mp hlk)
  · rw [get_or_create_sessionHit_false st now sid (Bool.eq_false_iff.mpr hhit)]
    exact managerInv_createNew st now h

/-- The store invariant is preserved by `update_access_time`. -/
theorem managerInv_update_access_time (st : ManagerState) (now : Nat)
    (id : Int) (h : managerInv st) :
    managerInv (update_access_time st now id) := by
  unfold update_access_time
  split
  · next hs =>
      exact managerInv_setI_access st id now h ((lookupI_isSome_iff _ _).mp hs)
  · exact h
